import Mathlib

/-!
Verification of the PDF ingestion and retrieval pipeline
(src/utils.py, src/pdf_processor.py, src/embeddings.py).

The Python code is shallowly embedded: pure string routines become Lean
functions over lists of characters (the ASCII fragment of the Python
character classes), the possibly non-terminating chunking loop becomes a
fuel-indexed function returning none when the fuel runs out, and the
PostgreSQL documents table becomes a list of rows with the upsert keyed
on (filename, chunk_id).  The external embedding provider is an opaque
function returning Option, none standing for a raised provider exception;
per-statement store failures are an opaque Bool-valued function of the
batch index.
-/

/-! ## Python string primitives (ASCII fragment) -/

/-- Whitespace characters matched by Python's regex class backslash-s and
stripped by str.strip(), restricted to ASCII. -/
def isPyWs (c : Char) : Bool :=
  c = ' ' || c = '\t' || c = '\n' || c = '\r' || c = '\x0b' || c = '\x0c'

/-- Word characters of Python's regex class backslash-w, restricted to ASCII:
letters, digits and the underscore. -/
def isWordChar (c : Char) : Bool :=
  c.isAlphanum || c = '_'

/-- Punctuation kept by the character-class substitution in clean_text
(utils.py line 46). -/
def isPunctKeep (c : Char) : Bool :=
  c = '.' || c = ',' || c = '!' || c = '?' || c = ';' || c = ':' ||
  c = '-' || c = '(' || c = ')' || c = '[' || c = ']'

/-- Characters that survive the substitution re.sub removing everything
outside word characters, whitespace and the allowed punctuation
(utils.py line 46). -/
def keepChar (c : Char) : Bool :=
  isWordChar c || isPyWs c || isPunctKeep c

/-- Worker for collapseWs: the flag records whether the previous character
belonged to a whitespace run already replaced by a single space. -/
def collapseWsAux : Bool → List Char → List Char
  | _, [] => []
  | prevWs, c :: rest =>
    if isPyWs c then
      if prevWs then collapseWsAux true rest
      else ' ' :: collapseWsAux true rest
    else c :: collapseWsAux false rest

/-- Embedding of re.sub replacing every maximal whitespace run by a single
space (utils.py line 45). -/
def collapseWs (l : List Char) : List Char :=
  collapseWsAux false l

/-- Index of the last occurrence of a character in a list, if any. -/
def lastIdxOf (c : Char) (l : List Char) : Option Nat :=
  ((List.range l.length).filter (fun i => l[i]? == some c)).getLast?

theorem getLast?_mem_self {α : Type _} {l : List α} {a : α}
    (h : l.getLast? = some a) : a ∈ l := by
  obtain ⟨hne, rfl⟩ := List.mem_getLast?_eq_getLast (Option.mem_def.mpr h)
  exact List.getLast_mem hne

theorem lastIdxOf_lt {c : Char} {l : List Char} {j : Nat}
    (h : lastIdxOf c l = some j) : j < l.length := by
  unfold lastIdxOf at h
  have hmem : j ∈ (List.range l.length).filter (fun i => l[i]? == some c) :=
    getLast?_mem_self h
  have := (List.mem_filter.mp hmem).1
  exact List.mem_range.mp this

/-- Embedding of re.sub replacing each leftmost-longest match of a newline,
then whitespace, then a newline by two newlines (utils.py line 49).  A
match starting at a newline consumes up to the last newline of the
whitespace run that follows. -/
def subNlF : Nat → List Char → List Char
  | 0, l => l
  | _ + 1, [] => []
  | fuel + 1, c :: rest =>
    if c = '\n' then
      match lastIdxOf '\n' (List.takeWhile isPyWs rest) with
      | some j => '\n' :: '\n' :: subNlF fuel (rest.drop (j + 1))
      | none => c :: subNlF fuel rest
    else c :: subNlF fuel rest

/-- Substitution entry point: every step of subNlF consumes at least one
character and one unit of fuel, so length-plus-one fuel never runs out
and subNl is the unbounded left-to-right scan of the regex engine. -/
def subNl (l : List Char) : List Char :=
  subNlF (l.length + 1) l

/-- Embedding of Python str.strip(): remove whitespace from both ends
(utils.py line 52). -/
def pyStripL (l : List Char) : List Char :=
  ((l.dropWhile isPyWs).reverse.dropWhile isPyWs).reverse

/-- Embedding of clean_text (utils.py lines 31-54) on character lists:
collapse whitespace runs, delete disallowed characters, apply the
blank-line substitution, then strip both ends. -/
def cleanTextL (l : List Char) : List Char :=
  pyStripL (subNl (List.filter keepChar (collapseWs l)))

/-- Embedding of clean_text on strings. -/
def cleanText (s : String) : String :=
  ⟨cleanTextL s.data⟩

/-! ## Python slicing and rfind with the sign conventions of CPython -/

/-- Adjustment of a possibly negative Python index against a length, as
performed by slicing and str.rfind: negative indices count from the end
and everything is clamped into the range from 0 to the length. -/
def pyIdx (n : Nat) (i : Int) : Nat :=
  if i < 0 then (i + n).toNat else min i.toNat n

/-- Embedding of the Python slice text[s:e]. -/
def pySlice (l : List Char) (s e : Int) : List Char :=
  (l.take (pyIdx l.length e)).drop (pyIdx l.length s)

/-- Embedding of Python str.rfind(c, s, e): index of the last occurrence
of c in the half-open index range from s to e, or -1. -/
def pyRfind (l : List Char) (c : Char) (s e : Int) : Int :=
  let a := pyIdx l.length s
  let b := pyIdx l.length e
  match ((List.range' a (b - a)).filter (fun i => l[i]? == some c)).getLast? with
  | some j => (j : Int)
  | none => -1

/-! ## The chunker (split_text_into_chunks, utils.py lines 56-93) -/

/-- End of the window starting at start: start plus max_chunk_size,
retracted to the last space strictly after start when the tentative end
lies strictly inside the text (utils.py lines 75-82). -/
def chunkEnd (l : List Char) (maxSize : Nat) (start : Int) : Int :=
  let e0 := start + maxSize
  if e0 < (l.length : Int) then
    let ls := pyRfind l ' ' start e0
    if start < ls then ls else e0
  else e0

/-- Embedding of the while loop of split_text_into_chunks (utils.py lines
74-91).  The Python loop has no bound, so the embedding carries fuel and
returns none when the fuel is exhausted before the loop exits. -/
def splitLoop (l : List Char) (maxSize ov : Nat) :
    Nat → Int → List (List Char) → Option (List (List Char))
  | 0, _, _ => none
  | fuel + 1, start, acc =>
    if start < (l.length : Int) then
      let e := chunkEnd l maxSize start
      let chunk := pyStripL (pySlice l start e)
      let acc' := if chunk.isEmpty then acc else acc ++ [chunk]
      let start' := e - ov
      if (l.length : Int) ≤ start' then some acc'
      else splitLoop l maxSize ov fuel start' acc'
    else some acc

/-- Embedding of split_text_into_chunks: a text no longer than
max_chunk_size is returned whole as a single chunk, otherwise the sliding
window loop runs (utils.py lines 68-93). -/
def splitTextIntoChunks (l : List Char) (maxSize ov fuel : Nat) :
    Option (List (List Char)) :=
  if l.length ≤ maxSize then some [l] else splitLoop l maxSize ov fuel 0 []

/-- Window trace of the chunking loop: same control flow as splitLoop but
recording the (start, end) pair of every iteration instead of the
stripped chunk texts. -/
def splitWindows (l : List Char) (maxSize ov : Nat) :
    Nat → Int → List (Int × Int) → Option (List (Int × Int))
  | 0, _, _ => none
  | fuel + 1, start, acc =>
    if start < (l.length : Int) then
      let e := chunkEnd l maxSize start
      let acc' := acc ++ [(start, e)]
      let start' := e - ov
      if (l.length : Int) ≤ start' then some acc'
      else splitWindows l maxSize ov fuel start' acc'
    else some acc

/-- Chunk text produced from one window: the stripped slice. -/
def mkChunk (l : List Char) (w : Int × Int) : List Char :=
  pyStripL (pySlice l w.1 w.2)

/-- Chain predicate for a window trace: each window starts where the loop
put it, its end is computed by chunkEnd, and the next window starts
exactly overlap characters before this window's end. -/
def WindowChain (l : List Char) (maxSize ov : Nat) : Int → List (Int × Int) → Prop
  | _, [] => True
  | s, w :: rest =>
    w.1 = s ∧ w.2 = chunkEnd l maxSize w.1 ∧
      WindowChain l maxSize ov (w.2 - ov) rest

/-! ## The text extractor (extract_text_from_pdf, pdf_processor.py lines 34-70) -/

/-- Result of extraction: the cleaned text and the processing method
recorded in the metadata. -/
structure ExtractResult where
  text : String
  method : String
deriving DecidableEq

/-- Embedding of the OCR decision and normalization in
extract_text_from_pdf (pdf_processor.py lines 50-57).  The native tiers
and the OCR tier read the filesystem, so their raw outputs are inputs
here: nativeText and nativeMethod are what _try_text_extraction returned,
ocrText is what _extract_text_with_ocr would return.  OCR runs exactly
when the native text is empty or its stripped length is below 50, and
the selected text is normalized by clean_text before being returned. -/
def extractTextFromPdf (nativeText nativeMethod ocrText : String) : ExtractResult :=
  if nativeText = "" ∨ (pyStripL nativeText.data).length < 50 then
    { text := cleanText ocrText, method := "ocr" }
  else
    { text := cleanText nativeText, method := nativeMethod }

/-- Count of non-whitespace characters of a string; this is the measure
used by the specification's wording for the OCR gate. -/
def nonWsCount (s : String) : Nat :=
  (s.data.filter (fun c => !isPyWs c)).length

/-- Detects two adjacent whitespace characters somewhere in a list. -/
def hasAdjacentWs : List Char → Bool
  | a :: b :: r => (isPyWs a && isPyWs b) || hasAdjacentWs (b :: r)
  | _ => false

/-- Both edges of a list are free of whitespace. -/
def noEdgeWs (l : List Char) : Bool :=
  (match l.head? with | some c => !isPyWs c | none => true) &&
  (match l.getLast? with | some c => !isPyWs c | none => true)

/-! ## The vector store (PostgresEmbeddingManager, embeddings.py) -/

/-- Row of the documents table (embeddings.py lines 46-58).  Embeddings
are rational vectors; created_at is an abstract timestamp. -/
structure DocRow where
  filename : String
  fileHash : String
  chunkId : Int
  content : String
  embedding : List ℚ
  metadata : String
  createdAt : Nat
deriving DecidableEq

/-- Input dictionary consumed by add_documents (embeddings.py lines
113-140): one chunk with its metadata, before embedding. -/
structure DocInput where
  filename : String
  fileHash : String
  chunkId : Int
  content : String
  metadata : String
deriving DecidableEq

/-- Row built from one input and its embedding at a given timestamp. -/
def mkRow (d : DocInput) (e : List ℚ) (now : Nat) : DocRow :=
  ⟨d.filename, d.fileHash, d.chunkId, d.content, e, d.metadata, now⟩

/-- Presence of a row with the unique key (filename, chunk_id). -/
def hasKey (t : List DocRow) (fn : String) (cid : Int) : Bool :=
  t.any (fun q => q.filename == fn && q.chunkId == cid)

/-- Embedding of the INSERT ... ON CONFLICT (filename, chunk_id) DO UPDATE
statement (embeddings.py lines 123-140): if a row with the key exists its
content, embedding, metadata and timestamp are overwritten in place,
otherwise the row is appended. -/
def upsertRow (t : List DocRow) (r : DocRow) : List DocRow :=
  if hasKey t r.filename r.chunkId then
    t.map (fun q => if q.filename == r.filename && q.chunkId == r.chunkId then r else q)
  else t ++ [r]

/-- Embedding of generate_embeddings (embeddings.py lines 85-111): one
provider call per text, aborting at the first failure.  The provider is
opaque; none models a raised exception. -/
def generateEmbeddings (provider : String → Option (List ℚ))
    (texts : List String) : Option (List (List ℚ)) :=
  texts.mapM provider

/-- Execution of the upsert statements of one add_documents transaction.
writeFail tells whether the statement at a batch index raises a store
error; any failure aborts the transaction, which the database then rolls
back, so the staged rows are discarded (none). -/
def runUpserts (writeFail : Nat → Bool) (now : Nat) :
    List DocRow → Nat → List (DocInput × List ℚ) → Option (List DocRow)
  | t, _, [] => some t
  | t, i, p :: rest =>
    if writeFail i then none
    else runUpserts writeFail now (upsertRow t (mkRow p.1 p.2 now)) (i + 1) rest

/-- Table obtained by upserting a batch of input-embedding pairs in
order; this is the committed result of a fully successful transaction. -/
def upFold (now : Nat) (t : List DocRow) (ps : List (DocInput × List ℚ)) :
    List DocRow :=
  ps.foldl (fun a p => upsertRow a (mkRow p.1 p.2 now)) t

/-- Embedding of add_documents (embeddings.py lines 113-149): embeddings
for the whole batch are generated first, then every row is upserted inside
one transaction committed at the end.  Any exception, from the provider or
from the store, is caught by the surrounding try/except, which leaves the
table unchanged (the connection rolls back) and returns False. -/
def addDocuments (provider : String → Option (List ℚ)) (writeFail : Nat → Bool)
    (now : Nat) (table : List DocRow) (docs : List DocInput) :
    List DocRow × Bool :=
  match generateEmbeddings provider (docs.map (·.content)) with
  | none => (table, false)
  | some es =>
    match runUpserts writeFail now table 0 (docs.zip es) with
    | none => (table, false)
    | some t => (t, true)

/-- Effective top_k of search_similar: the Python guard if not top_k
replaces both a missing and a zero top_k by the configured default
(embeddings.py lines 154-155). -/
def effectiveTopK (defaultTopK : Nat) (topK : Option Nat) : Nat :=
  match topK with
  | none => defaultTopK
  | some k0 => if k0 = 0 then defaultTopK else k0

/-- Embedding of search_similar (embeddings.py lines 151-182).  dist is
the opaque cosine-distance operator of pgvector; the SQL filters rows to
similarity (one minus distance) strictly above the threshold, orders by
ascending distance and limits to top_k, where a missing or zero top_k
falls back to the configured default.  A provider exception is caught and
yields the empty list. -/
def searchSimilar (provider : String → Option (List ℚ))
    (dist : List ℚ → List ℚ → ℚ) (defaultTopK : Nat) (threshold : ℚ)
    (table : List DocRow) (query : String) (topK : Option Nat) :
    List (DocRow × ℚ) :=
  let k := effectiveTopK defaultTopK topK
  match generateEmbeddings provider [query] with
  | some (qe :: _) =>
    let hits := table.filter (fun r => threshold < 1 - dist r.embedding qe)
    let sorted := hits.mergeSort
      (fun a b => decide (dist a.embedding qe ≤ dist b.embedding qe))
    (sorted.take k).map (fun r => (r, 1 - dist r.embedding qe))
  | _ => []

/-- Embedding of get_collection_info (embeddings.py lines 184-209): total
row count, distinct filename count, and the sorted list of distinct
filenames. -/
def getCollectionInfo (t : List DocRow) : Nat × Nat × List String :=
  (t.length, (t.map (·.filename)).dedup.length,
    (t.map (·.filename)).dedup.mergeSort (fun a b => decide (a ≤ b)))

/-- Modelled from the spec: add under the propagation rule of the spec's
error-handling design, which says a provider or store failure is
propagated immediately to the caller, aborting the operation.  This is
the refinement target the actual add_documents is compared against. -/
def addDocumentsSpecPropagate (provider : String → Option (List ℚ))
    (writeFail : Nat → Bool) (now : Nat) (table : List DocRow)
    (docs : List DocInput) : Except Unit (List DocRow × Bool) :=
  match generateEmbeddings provider (docs.map (·.content)) with
  | none => Except.error ()
  | some es =>
    match runUpserts writeFail now table 0 (docs.zip es) with
    | none => Except.error ()
    | some t => Except.ok (t, true)

/-- Modelled from the spec: search under the propagation rule of the
spec's error-handling design, which says search raises on provider
failure (and only then). -/
def searchSimilarSpecPropagate (provider : String → Option (List ℚ))
    (dist : List ℚ → List ℚ → ℚ) (defaultTopK : Nat) (threshold : ℚ)
    (table : List DocRow) (query : String) (topK : Option Nat) :
    Except Unit (List (DocRow × ℚ)) :=
  match generateEmbeddings provider [query] with
  | none => Except.error ()
  | some _ => Except.ok (searchSimilar provider dist defaultTopK threshold table query topK)

/-! ## Auxiliary lemmas about the string primitives -/

theorem mem_collapseWsAux_ws {c : Char} :
    ∀ (l : List Char) (flag : Bool), c ∈ collapseWsAux flag l →
      isPyWs c = true → c = ' ' := by
  intro l
  induction l with
  | nil => intro flag h; simp [collapseWsAux] at h
  | cons a r ih =>
    intro flag h hc
    cases flag <;> by_cases ha : isPyWs a <;>
        simp only [collapseWsAux, ha, if_true, if_false, List.mem_cons,
          Bool.false_eq_true, reduceIte] at h
    · rcases h with rfl | h
      · exact rfl
      · exact ih true h hc
    · rcases h with rfl | h
      · exact absurd hc (by simp [ha])
      · exact ih false h hc
    · exact ih true h hc
    · rcases h with rfl | h
      · exact absurd hc (by simp [ha])
      · exact ih false h hc

theorem dropWhile_head_false {p : Char → Bool} :
    ∀ (l : List Char) (c : Char) (t : List Char),
      l.dropWhile p = c :: t → p c = false := by
  intro l
  induction l with
  | nil => intro c t h; simp [List.dropWhile] at h
  | cons a r ih =>
    intro c t h
    rw [List.dropWhile_cons] at h
    by_cases ha : p a
    · rw [if_pos ha] at h; exact ih c t h
    · rw [if_neg ha] at h
      cases h
      simpa using ha

theorem dropWhile_getLast?_eq {p : Char → Bool} :
    ∀ (x : List Char), x.dropWhile p ≠ [] →
      (x.dropWhile p).getLast? = x.getLast? := by
  intro x
  induction x with
  | nil => intro h; simp [List.dropWhile] at h
  | cons a r ih =>
    intro h
    rw [List.dropWhile_cons] at h ⊢
    by_cases ha : p a
    · rw [if_pos ha] at h ⊢
      have hr : r ≠ [] := by
        intro hr; rw [hr] at h; simp [List.dropWhile] at h
      rw [ih h]
      cases r with
      | nil => exact absurd rfl hr
      | cons b s => rw [List.getLast?_cons_cons]
    · rw [if_neg ha]

theorem pyStripL_sublist (l : List Char) : (pyStripL l).Sublist l := by
  have h1 : (l.dropWhile isPyWs).Sublist l := List.dropWhile_sublist _
  have h2 : ((l.dropWhile isPyWs).reverse.dropWhile isPyWs).Sublist
      (l.dropWhile isPyWs).reverse := List.dropWhile_sublist _
  have h3 := List.reverse_sublist.mpr h2
  rw [List.reverse_reverse] at h3
  exact h3.trans h1

theorem noEdgeWs_pyStripL (l : List Char) : noEdgeWs (pyStripL l) = true := by
  rcases hvc : (l.dropWhile isPyWs).reverse.dropWhile isPyWs with _ | ⟨c, t⟩
  · unfold noEdgeWs pyStripL
    rw [hvc]
    rfl
  · have hb : isPyWs c = false := dropWhile_head_false _ c t hvc
    have hvne : (l.dropWhile isPyWs).reverse.dropWhile isPyWs ≠ [] := by
      rw [hvc]; exact List.cons_ne_nil c t
    have hveq : ((l.dropWhile isPyWs).reverse.dropWhile isPyWs).getLast?
        = (l.dropWhile isPyWs).head? := by
      rw [dropWhile_getLast?_eq _ hvne, List.getLast?_reverse]
    unfold noEdgeWs pyStripL
    rw [hvc] at hveq ⊢
    rw [List.getLast?_reverse, List.head?_reverse, hveq]
    rcases hdc : l.dropWhile isPyWs with _ | ⟨c', t'⟩
    · rw [hdc] at hvc; simp at hvc
    · have hb' : isPyWs c' = false := dropWhile_head_false l c' t' hdc
      simp [hb, hb']

theorem mem_collapseWs_ws {c : Char} {l : List Char}
    (h : c ∈ collapseWs l) (hc : isPyWs c = true) : c = ' ' :=
  mem_collapseWsAux_ws l false h hc

theorem subNlF_of_no_newline :
    ∀ (fuel : Nat) (l : List Char), '\n' ∉ l → subNlF fuel l = l := by
  intro fuel
  induction fuel with
  | zero => intro l _; rfl
  | succ n ih =>
    intro l h
    cases l with
    | nil => rfl
    | cons c rest =>
      have hc : ¬ c = '\n' := fun hcc => h (hcc ▸ List.mem_cons_self c rest)
      show (if c = '\n' then _ else c :: subNlF n rest) = c :: rest
      rw [if_neg hc]
      exact congrArg (c :: ·) (ih rest (fun hm => h (List.mem_cons_of_mem c hm)))

theorem subNl_of_no_newline (l : List Char) (h : '\n' ∉ l) : subNl l = l :=
  subNlF_of_no_newline (l.length + 1) l h

theorem filter_nws_dropWhile (l : List Char) :
    (l.dropWhile isPyWs).filter (fun c => !isPyWs c) =
      l.filter (fun c => !isPyWs c) := by
  induction l with
  | nil => rfl
  | cons a r ih =>
    rw [List.dropWhile_cons]
    by_cases ha : isPyWs a
    · rw [if_pos ha, ih, List.filter_cons]
      simp [ha]
    · rw [if_neg ha]

theorem filter_nws_pyStripL (l : List Char) :
    (pyStripL l).filter (fun c => !isPyWs c) = l.filter (fun c => !isPyWs c) := by
  unfold pyStripL
  rw [List.filter_reverse, filter_nws_dropWhile, List.filter_reverse,
    List.reverse_reverse, filter_nws_dropWhile]

theorem nonWsCount_le_pyStripL (s : String) :
    nonWsCount s ≤ (pyStripL s.data).length := by
  unfold nonWsCount
  rw [← filter_nws_pyStripL]
  exact List.length_filter_le _ _

theorem cleanTextL_chars (l : List Char) :
    ∀ c ∈ cleanTextL l, (isWordChar c || c == ' ' || isPunctKeep c) = true := by
  intro c hc
  unfold cleanTextL at hc
  have hnl : '\n' ∉ List.filter keepChar (collapseWs l) := by
    intro hmem
    have h1 := List.mem_filter.mp hmem
    have h2 := mem_collapseWs_ws h1.1 (by decide)
    exact absurd h2 (by decide)
  rw [subNl_of_no_newline _ hnl] at hc
  have hc2 : c ∈ List.filter keepChar (collapseWs l) :=
    (pyStripL_sublist _).subset hc
  have h1 := List.mem_filter.mp hc2
  have hkeep : keepChar c = true := h1.2
  unfold keepChar at hkeep
  by_cases hw : isPyWs c = true
  · have hsp : c = ' ' := mem_collapseWs_ws h1.1 hw
    rw [hsp]
    decide
  · have hwf : isPyWs c = false := by
      cases hhh : isPyWs c
      · rfl
      · exact absurd hhh hw
    have hspf : (c == ' ') = false := by
      cases hcc : c == ' '
      · rfl
      · have hce : c = ' ' := eq_of_beq hcc
        rw [hce] at hwf
        exact absurd hwf (by decide)
    rw [hwf] at hkeep
    rw [hspf]
    exact hkeep

/-! ## Claim theorems for the extractor and normalizer -/

/-- C4 counterexample: a native text of thirty letters separated by single
spaces has only 30 non-whitespace characters (fewer than 50), yet its
stripped length is 59, so extract_text_from_pdf keeps the native result
and never invokes OCR, contradicting the claim that such a file is
processed with processing_method equal to ocr. -/
theorem extractTextFromPdf_ocr_gate_cex :
    nonWsCount "a a a a a a a a a a a a a a a a a a a a a a a a a a a a a a " < 50 ∧
    "a a a a a a a a a a a a a a a a a a a a a a a a a a a a a a " ≠ "" ∧
    (extractTextFromPdf "a a a a a a a a a a a a a a a a a a a a a a a a a a a a a a "
        "standard_extraction" "scanned page").method ≠ "ocr" := by
  decide

/-- C4 (amended): extract_text_from_pdf invokes OCR exactly when the
native-extraction output, stripped of leading and trailing whitespace
only, has fewer than 50 characters (interior whitespace counts toward the
50); in particular a native text with at least 50 non-whitespace
characters never invokes OCR and keeps the native processing method. -/
theorem extractTextFromPdf_ocr_gate (nt m ot : String) (hm : m ≠ "ocr") :
    ((extractTextFromPdf nt m ot).method = "ocr" ↔
      (pyStripL nt.data).length < 50) ∧
    (50 ≤ nonWsCount nt → (extractTextFromPdf nt m ot).method = m) := by
  have hle : nonWsCount nt ≤ (pyStripL nt.data).length := nonWsCount_le_pyStripL nt
  unfold extractTextFromPdf
  by_cases hg : nt = "" ∨ (pyStripL nt.data).length < 50
  · rw [if_pos hg]
    have hlt : (pyStripL nt.data).length < 50 := by
      rcases hg with hg | hg
      · rw [hg]; decide
      · exact hg
    exact ⟨⟨fun _ => hlt, fun _ => rfl⟩, fun h50 => absurd hlt (by omega)⟩
  · rw [if_neg hg]
    push_neg at hg
    exact ⟨⟨fun hocr => absurd hocr hm, fun hlt => absurd hlt (by omega)⟩,
      fun _ => rfl⟩

/-- Witness for the amended C4 theorem at a concrete input with exactly 50
non-whitespace characters. -/
theorem extractTextFromPdf_ocr_gate_witness :
    ("standard_extraction" : String) ≠ "ocr" ∧
    (((extractTextFromPdf "abcdefghijabcdefghijabcdefghijabcdefghijabcdefghij"
          "standard_extraction" "x").method = "ocr" ↔
        (pyStripL "abcdefghijabcdefghijabcdefghijabcdefghijabcdefghij".data).length < 50) ∧
      (50 ≤ nonWsCount "abcdefghijabcdefghijabcdefghijabcdefghijabcdefghij" →
        (extractTextFromPdf "abcdefghijabcdefghijabcdefghijabcdefghijabcdefghij"
            "standard_extraction" "x").method = "standard_extraction")) :=
  ⟨by decide,
    extractTextFromPdf_ocr_gate
      "abcdefghijabcdefghijabcdefghijabcdefghijabcdefghij"
      "standard_extraction" "x" (by decide)⟩

/-- C9 counterexample: the input has a disallowed dollar sign between two
single spaces; clean_text collapses whitespace before deleting the dollar
sign, so the text returned by extract_text_from_pdf contains two adjacent
spaces, contradicting the claim that the returned text has no run of two
or more consecutive whitespace characters. -/
theorem extractTextFromPdf_double_ws_cex :
    (extractTextFromPdf
        "cccccccccccccccccccccccccccccccccccccccccccccccccc a $ b"
        "standard_extraction" "").text =
      "cccccccccccccccccccccccccccccccccccccccccccccccccc a  b" ∧
    hasAdjacentWs
      "cccccccccccccccccccccccccccccccccccccccccccccccccc a  b".data = true := by
  decide

/-- C9 (amended): the text returned by extract_text_from_pdf is the
clean_text normalization of the extracted text: it has no leading or
trailing whitespace and every character is a word character, a space, or
one of the allowed punctuation marks (all other special characters are
stripped, and every whitespace character of the raw text has been turned
into a plain space); deleting a disallowed character may however leave
two adjacent spaces behind. -/
theorem extractTextFromPdf_normalized (nt m ot : String) :
    noEdgeWs (extractTextFromPdf nt m ot).text.data = true ∧
    (extractTextFromPdf nt m ot).text.data.all
      (fun c => isWordChar c || c == ' ' || isPunctKeep c) = true := by
  have key : ∀ s : String, noEdgeWs (cleanText s).data = true ∧
      (cleanText s).data.all
        (fun c => isWordChar c || c == ' ' || isPunctKeep c) = true := by
    intro s
    constructor
    · show noEdgeWs (cleanTextL s.data) = true
      unfold cleanTextL
      exact noEdgeWs_pyStripL _
    · rw [List.all_eq_true]
      exact fun c hc => cleanTextL_chars s.data c hc
  unfold extractTextFromPdf
  split
  · exact key ot
  · exact key nt

/-! ## Claim theorems for the chunker: small input and nontermination -/

/-- C8: a text whose length is at most max_chunk_size is returned whole as
the single chunk, for any overlap and any amount of fuel. -/
theorem splitTextIntoChunks_single (l : List Char) (maxSize ov fuel : Nat)
    (h : l.length ≤ maxSize) : splitTextIntoChunks l maxSize ov fuel = some [l] := by
  unfold splitTextIntoChunks
  rw [if_pos h]

/-- Witness for the single-chunk theorem at a concrete two-character text. -/
theorem splitTextIntoChunks_single_witness :
    "ab".data.length ≤ 5 ∧ splitTextIntoChunks "ab".data 5 2 0 = some ["ab".data] :=
  ⟨by decide, splitTextIntoChunks_single "ab".data 5 2 0 (by decide)⟩

theorem splitLoop_stuck_example :
    ∀ (fuel : Nat) (acc : List (List Char)),
      splitLoop "ab cdefghij".data 5 2 fuel 0 acc = none := by
  intro fuel
  induction fuel with
  | zero => intro acc; rfl
  | succ n ih =>
    intro acc
    have hstep : splitLoop "ab cdefghij".data 5 2 (n + 1) 0 acc
        = splitLoop "ab cdefghij".data 5 2 n 0 (acc ++ ["ab".data]) := rfl
    rw [hstep]
    exact ih _

/-- C5: the chunking loop does not terminate on every input satisfying the
precondition max_chunk_size greater than overlap at least 0.  On the text
ab cdefghij with max_chunk_size 5 and overlap 2 the window end retracts
to the space at index 2 and the next start is 2 minus 2, so the start is
0 on every iteration and the loop never exits: the embedding returns none
for every amount of fuel. -/
theorem splitTextIntoChunks_nonterminating (fuel : Nat) :
    splitTextIntoChunks "ab cdefghij".data 5 2 fuel = none := by
  unfold splitTextIntoChunks
  rw [if_neg (by decide : ¬ ("ab cdefghij".data.length ≤ 5))]
  exact splitLoop_stuck_example fuel []

/-! ## Auxiliary lemmas about the store -/

theorem runUpserts_nofail (now : Nat) :
    ∀ (ps : List (DocInput × List ℚ)) (t : List DocRow) (i : Nat),
      runUpserts (fun _ => false) now t i ps = some (upFold now t ps) := by
  intro ps
  induction ps with
  | nil => intro t i; rfl
  | cons p rest ih => intro t i; exact ih (upsertRow t (mkRow p.1 p.2 now)) (i + 1)

theorem runUpserts_some (writeFail : Nat → Bool) (now : Nat) :
    ∀ (ps : List (DocInput × List ℚ)) (t t' : List DocRow) (i : Nat),
      runUpserts writeFail now t i ps = some t' → t' = upFold now t ps := by
  intro ps
  induction ps with
  | nil =>
    intro t t' i h
    exact (Option.some.inj h).symm
  | cons p rest ih =>
    intro t t' i h
    by_cases hw : writeFail i = true
    · simp only [runUpserts, hw, if_true] at h
      exact Option.noConfusion h
    · simp only [runUpserts, hw, if_false] at h
      exact ih _ _ _ h

theorem hasKey_upsertRow_self (t : List DocRow) (r : DocRow) :
    hasKey (upsertRow t r) r.filename r.chunkId = true := by
  unfold upsertRow
  by_cases hk : hasKey t r.filename r.chunkId
  · rw [if_pos hk]
    unfold hasKey at hk ⊢
    rw [List.any_eq_true] at hk ⊢
    obtain ⟨q, hq, hpred⟩ := hk
    exact ⟨r, List.mem_map.mpr ⟨q, hq, by rw [if_pos hpred]⟩, by simp⟩
  · rw [if_neg hk]
    unfold hasKey
    rw [List.any_eq_true]
    exact ⟨r, List.mem_append_right _ (List.mem_singleton.mpr rfl), by simp⟩

theorem hasKey_upsertRow_mono (t : List DocRow) (r : DocRow) (fn : String)
    (cid : Int) (h : hasKey t fn cid = true) :
    hasKey (upsertRow t r) fn cid = true := by
  unfold upsertRow
  by_cases hk : hasKey t r.filename r.chunkId
  · rw [if_pos hk]
    unfold hasKey at h ⊢
    rw [List.any_eq_true] at h ⊢
    obtain ⟨q, hq, hpred⟩ := h
    by_cases hm : (q.filename == r.filename && q.chunkId == r.chunkId) = true
    · refine ⟨r, List.mem_map.mpr ⟨q, hq, by rw [if_pos hm]⟩, ?_⟩
      rw [Bool.and_eq_true] at hm hpred ⊢
      have h1 : q.filename = r.filename := eq_of_beq hm.1
      have h2 : q.chunkId = r.chunkId := eq_of_beq hm.2
      rw [← h1, ← h2]
      exact hpred
    · exact ⟨q, List.mem_map.mpr ⟨q, hq, by rw [if_neg hm]⟩, hpred⟩
  · rw [if_neg hk]
    unfold hasKey at h ⊢
    rw [List.any_eq_true] at h ⊢
    obtain ⟨q, hq, hpred⟩ := h
    exact ⟨q, List.mem_append_left _ hq, hpred⟩

theorem upsertRow_of_hasKey (t : List DocRow) (r : DocRow)
    (h : hasKey t r.filename r.chunkId = true) :
    (upsertRow t r).length = t.length ∧
      (upsertRow t r).map (·.filename) = t.map (·.filename) := by
  unfold upsertRow
  rw [if_pos h]
  refine ⟨List.length_map _ _, ?_⟩
  rw [List.map_map]
  apply List.map_congr_left
  intro q hq
  simp only [Function.comp_apply]
  by_cases hm : (q.filename == r.filename && q.chunkId == r.chunkId) = true
  · rw [if_pos hm]
    exact (eq_of_beq ((Bool.and_eq_true _ _).mp hm).1).symm
  · rw [if_neg hm]

theorem upFold_hasKey_mono (now : Nat) (ps : List (DocInput × List ℚ)) :
    ∀ (t : List DocRow) (fn : String) (cid : Int),
      hasKey t fn cid = true → hasKey (upFold now t ps) fn cid = true := by
  induction ps with
  | nil => intro t fn cid h; exact h
  | cons p rest ih =>
    intro t fn cid h
    exact ih (upsertRow t (mkRow p.1 p.2 now)) fn cid
      (hasKey_upsertRow_mono t (mkRow p.1 p.2 now) fn cid h)

theorem upFold_hasKey_all (now : Nat) (ps : List (DocInput × List ℚ)) :
    ∀ (t : List DocRow), ∀ p ∈ ps,
      hasKey (upFold now t ps) p.1.filename p.1.chunkId = true := by
  induction ps with
  | nil => intro t p hp; cases hp
  | cons q rest ih =>
    intro t p hp
    rcases List.mem_cons.mp hp with rfl | hp'
    · exact upFold_hasKey_mono now rest (upsertRow t (mkRow p.1 p.2 now))
        p.1.filename p.1.chunkId (hasKey_upsertRow_self t (mkRow p.1 p.2 now))
    · exact ih (upsertRow t (mkRow q.1 q.2 now)) p hp'

theorem upFold_preserves_counts (now : Nat) (ps : List (DocInput × List ℚ)) :
    ∀ (t : List DocRow),
      (∀ p ∈ ps, hasKey t p.1.filename p.1.chunkId = true) →
      (upFold now t ps).length = t.length ∧
        (upFold now t ps).map (·.filename) = t.map (·.filename) := by
  induction ps with
  | nil => intro t _; exact ⟨rfl, rfl⟩
  | cons q rest ih =>
    intro t hall
    have hq := hall q (List.mem_cons_self q rest)
    have h1 := upsertRow_of_hasKey t (mkRow q.1 q.2 now) hq
    have hall' : ∀ p ∈ rest,
        hasKey (upsertRow t (mkRow q.1 q.2 now)) p.1.filename p.1.chunkId = true :=
      fun p hp => hasKey_upsertRow_mono _ _ _ _ (hall p (List.mem_cons_of_mem q hp))
    have h2 := ih (upsertRow t (mkRow q.1 q.2 now)) hall'
    exact ⟨h2.1.trans h1.1, h2.2.trans h1.2⟩

theorem addDocuments_none (provider : String → Option (List ℚ))
    (writeFail : Nat → Bool) (now : Nat) (table : List DocRow)
    (docs : List DocInput)
    (hE : generateEmbeddings provider (docs.map (·.content)) = none) :
    addDocuments provider writeFail now table docs = (table, false) := by
  unfold addDocuments
  rw [hE]

theorem addDocuments_some (provider : String → Option (List ℚ))
    (writeFail : Nat → Bool) (now : Nat) (table : List DocRow)
    (docs : List DocInput) (es : List (List ℚ))
    (hE : generateEmbeddings provider (docs.map (·.content)) = some es) :
    addDocuments provider writeFail now table docs =
      (match runUpserts writeFail now table 0 (docs.zip es) with
        | none => (table, false)
        | some t => (t, true)) := by
  unfold addDocuments
  rw [hE]

theorem addDocuments_nofail (provider : String → Option (List ℚ)) (now : Nat)
    (table : List DocRow) (docs : List DocInput) (es : List (List ℚ))
    (hE : generateEmbeddings provider (docs.map (·.content)) = some es) :
    addDocuments provider (fun _ => false) now table docs =
      (upFold now table (docs.zip es), true) := by
  rw [addDocuments_some provider (fun _ => false) now table docs es hE,
    runUpserts_nofail now (docs.zip es) table 0]

/-! ## Claim theorems for the store -/

/-- C1: adding the same chunk list twice is idempotent for the collection
statistics.  With a working provider and store, a second add_documents
call with the same documents leaves both the total chunk count and the
distinct-filename count reported by get_collection_info unchanged,
because every row of the second call hits the unique key
(filename, chunk_id) and is overwritten in place (content, embedding,
metadata and timestamp), never appended. -/
theorem addDocuments_idempotent (provider : String → Option (List ℚ))
    (now1 now2 : Nat) (table : List DocRow) (docs : List DocInput)
    (es : List (List ℚ))
    (hE : generateEmbeddings provider (docs.map (·.content)) = some es) :
    (getCollectionInfo (addDocuments provider (fun _ => false) now2
        (addDocuments provider (fun _ => false) now1 table docs).1 docs).1).1 =
      (getCollectionInfo
        (addDocuments provider (fun _ => false) now1 table docs).1).1 ∧
    (getCollectionInfo (addDocuments provider (fun _ => false) now2
        (addDocuments provider (fun _ => false) now1 table docs).1 docs).1).2.1 =
      (getCollectionInfo
        (addDocuments provider (fun _ => false) now1 table docs).1).2.1 := by
  have h1 : (addDocuments provider (fun _ => false) now1 table docs).1 =
      upFold now1 table (docs.zip es) := by
    rw [addDocuments_nofail provider now1 table docs es hE]
  have h2 : (addDocuments provider (fun _ => false) now2
      (upFold now1 table (docs.zip es)) docs).1 =
      upFold now2 (upFold now1 table (docs.zip es)) (docs.zip es) := by
    rw [addDocuments_nofail provider now2 (upFold now1 table (docs.zip es)) docs es hE]
  rw [h1, h2]
  have hall : ∀ p ∈ docs.zip es,
      hasKey (upFold now1 table (docs.zip es)) p.1.filename p.1.chunkId = true :=
    fun p hp => upFold_hasKey_all now1 (docs.zip es) table p hp
  have hpres := upFold_preserves_counts now2 (docs.zip es)
    (upFold now1 table (docs.zip es)) hall
  unfold getCollectionInfo
  exact ⟨hpres.1, by rw [hpres.2]⟩

/-- Witness for the idempotence theorem with one concrete document and a
constant provider. -/
theorem addDocuments_idempotent_witness :
    (getCollectionInfo (addDocuments (fun _ => some [(1 : ℚ)]) (fun _ => false) 7
        (addDocuments (fun _ => some [(1 : ℚ)]) (fun _ => false) 3 []
          [⟨"f.pdf", "h", 0, "hello", "m"⟩]).1
        [⟨"f.pdf", "h", 0, "hello", "m"⟩]).1).1 =
      (getCollectionInfo (addDocuments (fun _ => some [(1 : ℚ)]) (fun _ => false) 3 []
        [⟨"f.pdf", "h", 0, "hello", "m"⟩]).1).1 ∧
    (getCollectionInfo (addDocuments (fun _ => some [(1 : ℚ)]) (fun _ => false) 7
        (addDocuments (fun _ => some [(1 : ℚ)]) (fun _ => false) 3 []
          [⟨"f.pdf", "h", 0, "hello", "m"⟩]).1
        [⟨"f.pdf", "h", 0, "hello", "m"⟩]).1).2.1 =
      (getCollectionInfo (addDocuments (fun _ => some [(1 : ℚ)]) (fun _ => false) 3 []
        [⟨"f.pdf", "h", 0, "hello", "m"⟩]).1).2.1 :=
  addDocuments_idempotent (fun _ => some [(1 : ℚ)]) 3 7 []
    [⟨"f.pdf", "h", 0, "hello", "m"⟩] [[(1 : ℚ)]] rfl

/-- C7: add_documents is all-or-nothing.  All embeddings are obtained
before any row is written, and the upserts run in one transaction that is
rolled back on any failure, so the call either leaves the table exactly
as it was and reports False, or commits the upsert of the whole batch and
reports True; no partial prefix of the batch is ever visible. -/
theorem addDocuments_all_or_nothing (provider : String → Option (List ℚ))
    (writeFail : Nat → Bool) (now : Nat) (table : List DocRow)
    (docs : List DocInput) :
    addDocuments provider writeFail now table docs = (table, false) ∨
    ∃ es, generateEmbeddings provider (docs.map (·.content)) = some es ∧
      addDocuments provider writeFail now table docs =
        (upFold now table (docs.zip es), true) := by
  cases hE : generateEmbeddings provider (docs.map (·.content)) with
  | none => exact Or.inl (addDocuments_none provider writeFail now table docs hE)
  | some es =>
    rw [addDocuments_some provider writeFail now table docs es hE]
    cases hR : runUpserts writeFail now table 0 (docs.zip es) with
    | none => exact Or.inl rfl
    | some t =>
      refine Or.inr ⟨es, rfl, ?_⟩
      rw [runUpserts_some writeFail now (docs.zip es) table t 0 hR]

theorem generateEmbeddings_down (provider : String → Option (List ℚ))
    (hProv : ∀ t, provider t = none) :
    ∀ (texts : List String), texts ≠ [] →
      generateEmbeddings provider texts = none := by
  intro texts htx
  cases texts with
  | nil => exact absurd rfl htx
  | cons a rest =>
    unfold generateEmbeddings
    rw [List.mapM_cons, hProv a]
    rfl

theorem searchSimilar_provider_down (provider : String → Option (List ℚ))
    (dist : List ℚ → List ℚ → ℚ) (dk : Nat) (threshold : ℚ)
    (table : List DocRow) (query : String) (topK : Option Nat)
    (hProv : ∀ t, provider t = none) :
    searchSimilar provider dist dk threshold table query topK = [] := by
  unfold searchSimilar
  rw [generateEmbeddings_down provider hProv [query] (by simp)]

/-- C3 counterexample: with a provider whose every call fails, the
spec-modelled propagating versions surface an error to the caller, but
the code's add_documents returns the normal value (unchanged table,
False) and search_similar returns the normal empty list: the provider
failure is caught and logged inside the store, not propagated, and a
failed search is indistinguishable from a search with no results. -/
theorem providerFailure_not_propagated_cex :
    addDocuments (fun _ => none) (fun _ => false) 0 []
        [⟨"f.pdf", "h", 0, "c", "m"⟩] = ([], false) ∧
    addDocumentsSpecPropagate (fun _ => none) (fun _ => false) 0 []
        [⟨"f.pdf", "h", 0, "c", "m"⟩] = Except.error () ∧
    searchSimilar (fun _ => none) (fun _ _ => 0) 5 0 [] "q" none = [] ∧
    searchSimilarSpecPropagate (fun _ => none) (fun _ _ => 0) 5 0 [] "q" none =
      Except.error () :=
  ⟨rfl, rfl, rfl, rfl⟩

/-- C3 (amended): a provider failure aborts the current operation at once
with no row written, but the raised exception is caught inside
add_documents and search_similar rather than propagated: add_documents
reports it by returning False with the table unchanged, and
search_similar returns the empty list, so neither caller sees an
exception and a failed search looks exactly like an empty result. -/
theorem providerFailure_caught (provider : String → Option (List ℚ))
    (writeFail : Nat → Bool) (now : Nat) (table : List DocRow)
    (docs : List DocInput) (dist : List ℚ → List ℚ → ℚ) (dk : Nat)
    (threshold : ℚ) (query : String) (topK : Option Nat)
    (hProv : ∀ t : String, provider t = none) (hdocs : docs ≠ []) :
    addDocuments provider writeFail now table docs = (table, false) ∧
    searchSimilar provider dist dk threshold table query topK = [] := by
  have hge : generateEmbeddings provider (docs.map (·.content)) = none := by
    apply generateEmbeddings_down provider hProv
    cases docs with
    | nil => exact absurd rfl hdocs
    | cons d r => simp
  exact ⟨addDocuments_none provider writeFail now table docs hge,
    searchSimilar_provider_down provider dist dk threshold table query topK hProv⟩

/-- Witness for the amended C3 theorem at concrete inputs. -/
theorem providerFailure_caught_witness :
    addDocuments (fun _ => none) (fun _ => true) 3 []
        [⟨"g.pdf", "h2", 1, "cc", "mm"⟩] = ([], false) ∧
    searchSimilar (fun _ => none) (fun _ _ => 0) 5 0 [] "qq" (some 2) = [] :=
  providerFailure_caught (fun _ => none) (fun _ => true) 3 []
    [⟨"g.pdf", "h2", 1, "cc", "mm"⟩] (fun _ _ => 0) 5 0 "qq" (some 2)
    (fun _ => rfl) (by simp)

/-- C2: the search contract.  For every query and every positive top_k,
search_similar returns only rows whose similarity (one minus cosine
distance) is strictly greater than the threshold, in descending order of
similarity (ascending distance), with at most top_k rows; and when no
stored row clears the threshold it returns the empty list rather than an
error. -/
theorem searchSimilar_spec (provider : String → Option (List ℚ))
    (dist : List ℚ → List ℚ → ℚ) (dk : Nat) (threshold : ℚ)
    (table : List DocRow) (query : String) (k : Nat) (hk : 0 < k) :
    (∀ p ∈ searchSimilar provider dist dk threshold table query (some k),
      threshold < p.2) ∧
    List.Pairwise (fun p q => q.2 ≤ p.2)
      (searchSimilar provider dist dk threshold table query (some k)) ∧
    (searchSimilar provider dist dk threshold table query (some k)).length ≤ k ∧
    ((∀ r ∈ table, ∀ qe, provider query = some qe →
        1 - dist r.embedding qe ≤ threshold) →
      searchSimilar provider dist dk threshold table query (some k) = []) := by
  have hkeff : effectiveTopK dk (some k) = k := by
    show (if k = 0 then dk else k) = k
    rw [if_neg (Nat.pos_iff_ne_zero.mp hk)]
  unfold searchSimilar
  rw [hkeff]
  cases hq : generateEmbeddings provider [query] with
  | none =>
    exact ⟨fun p hp => absurd hp (List.not_mem_nil p), List.Pairwise.nil,
      Nat.zero_le _, fun _ => rfl⟩
  | some qes =>
    cases qes with
    | nil =>
      exact ⟨fun p hp => absurd hp (List.not_mem_nil p), List.Pairwise.nil,
        Nat.zero_le _, fun _ => rfl⟩
    | cons qe rest =>
      have hpq : provider query = some qe := by
        unfold generateEmbeddings at hq
        rw [List.mapM_cons, List.mapM_nil] at hq
        cases hp : provider query with
        | none => rw [hp] at hq; exact Option.noConfusion hq
        | some e =>
          rw [hp] at hq
          simp only [Option.bind_eq_bind, Option.some_bind, Option.pure_def] at hq
          cases hq
          rfl
      have h1 : ∀ p ∈ (((table.filter
            (fun r => threshold < 1 - dist r.embedding qe)).mergeSort
              (fun a b => decide (dist a.embedding qe ≤ dist b.embedding qe))).take k).map
                (fun r => (r, 1 - dist r.embedding qe)), threshold < p.2 := by
        intro p hp
        obtain ⟨r, hr, rfl⟩ := List.mem_map.mp hp
        have hr2 := (List.take_sublist k _).subset hr
        have hr3 := List.mem_mergeSort.mp hr2
        exact of_decide_eq_true (List.mem_filter.mp hr3).2
      have h2 : List.Pairwise (fun p q => q.2 ≤ p.2)
          ((((table.filter
            (fun r => threshold < 1 - dist r.embedding qe)).mergeSort
              (fun a b => decide (dist a.embedding qe ≤ dist b.embedding qe))).take k).map
                (fun r => (r, 1 - dist r.embedding qe))) := by
        have hs := @List.sorted_mergeSort DocRow
          (fun a b => decide (dist a.embedding qe ≤ dist b.embedding qe))
          (fun a b c hab hbc => decide_eq_true
            (le_trans (of_decide_eq_true hab) (of_decide_eq_true hbc)))
          (fun a b => by
            simp only [Bool.or_eq_true, decide_eq_true_eq]
            exact le_total _ _)
          (table.filter (fun r => threshold < 1 - dist r.embedding qe))
        have htake := List.Pairwise.sublist (List.take_sublist k _) hs
        exact htake.map _ (fun a b hab =>
          sub_le_sub_left (of_decide_eq_true hab) 1)
      have h3 : ((((table.filter
            (fun r => threshold < 1 - dist r.embedding qe)).mergeSort
              (fun a b => decide (dist a.embedding qe ≤ dist b.embedding qe))).take k).map
                (fun r => (r, 1 - dist r.embedding qe))).length ≤ k := by
        rw [List.length_map]
        exact List.length_take_le k _
      have h4 : (∀ r ∈ table, ∀ qe2, provider query = some qe2 →
          1 - dist r.embedding qe2 ≤ threshold) →
          ((((table.filter
            (fun r => threshold < 1 - dist r.embedding qe)).mergeSort
              (fun a b => decide (dist a.embedding qe ≤ dist b.embedding qe))).take k).map
                (fun r => (r, 1 - dist r.embedding qe))) = [] := by
        intro hall
        have hfe : table.filter (fun r => threshold < 1 - dist r.embedding qe) = [] := by
          rw [List.filter_eq_nil_iff]
          intro r hr hd
          exact absurd (of_decide_eq_true hd) (not_lt.mpr (hall r hr qe hpq))
        rw [hfe, List.mergeSort_nil, List.take_nil, List.map_nil]
      exact ⟨h1, h2, h3, h4⟩

/-- Witness for the search contract with an empty table and top_k one. -/
theorem searchSimilar_spec_witness :
    (∀ p ∈ searchSimilar (fun _ => some [(1 : ℚ)]) (fun _ _ => 0) 5 0 [] "q" (some 1),
      (0 : ℚ) < p.2) ∧
    List.Pairwise (fun p q => q.2 ≤ p.2)
      (searchSimilar (fun _ => some [(1 : ℚ)]) (fun _ _ => 0) 5 0 [] "q" (some 1)) ∧
    (searchSimilar (fun _ => some [(1 : ℚ)]) (fun _ _ => 0) 5 0 [] "q" (some 1)).length ≤ 1 ∧
    ((∀ r ∈ ([] : List DocRow), ∀ qe, (fun _ : String => some [(1 : ℚ)]) "q" = some qe →
        1 - (fun _ _ : List ℚ => (0 : ℚ)) r.embedding qe ≤ 0) →
      searchSimilar (fun _ => some [(1 : ℚ)]) (fun _ _ => 0) 5 0 [] "q" (some 1) = []) :=
  searchSimilar_spec (fun _ => some [(1 : ℚ)]) (fun _ _ => 0) 5 0 [] "q" 1
    (by decide)

/-! ## Auxiliary lemmas about slicing, rfind and the chunk windows -/

theorem pyIdx_le (n : Nat) (i : Int) : pyIdx n i ≤ n := by
  unfold pyIdx
  split_ifs <;> omega

theorem pySlice_length (l : List Char) (s e : Int) :
    (pySlice l s e).length = pyIdx l.length e - pyIdx l.length s := by
  unfold pySlice
  rw [List.length_drop, List.length_take, min_eq_left (pyIdx_le l.length e)]

theorem pyRfind_neg_or (l : List Char) (c : Char) (s e : Int) :
    pyRfind l c s e = -1 ∨
    (0 ≤ pyRfind l c s e ∧ pyIdx l.length s ≤ (pyRfind l c s e).toNat ∧
      (pyRfind l c s e).toNat < pyIdx l.length e ∧
      l[(pyRfind l c s e).toNat]? = some c) := by
  simp only [pyRfind]
  cases hg : ((List.range' (pyIdx l.length s) (pyIdx l.length e - pyIdx l.length s)).filter
      (fun i => l[i]? == some c)).getLast? with
  | none => exact Or.inl rfl
  | some j =>
    right
    have hmem := getLast?_mem_self hg
    have h1 := List.mem_filter.mp hmem
    have h2 := List.mem_range'_1.mp h1.1
    refine ⟨Int.natCast_nonneg j, ?_, ?_, ?_⟩
    · rw [Int.toNat_natCast]; exact h2.1
    · rw [Int.toNat_natCast]; omega
    · rw [Int.toNat_natCast]; exact eq_of_beq h1.2

theorem chunk_length_le (l : List Char) (maxSize ov : Nat) (start : Int)
    (hov : ov < maxSize) (hn : (maxSize : Int) < (l.length : Int))
    (hs1 : start < (l.length : Int)) (hs2 : -(1 + (ov : Int)) ≤ start) :
    (pySlice l start (chunkEnd l maxSize start)).length ≤ maxSize := by
  rw [pySlice_length]
  simp only [chunkEnd]
  rcases pyRfind_neg_or l ' ' start (start + maxSize) with hr | hr
  · split_ifs with h1 h2
    · rw [hr]
      rw [hr] at h2
      simp only [pyIdx]
      split_ifs <;> omega
    · simp only [pyIdx]
      split_ifs <;> omega
    · simp only [pyIdx]
      split_ifs <;> omega
  · split_ifs with h1 h2
    · obtain ⟨hr0, hra, hrb, _⟩ := hr
      revert hra hrb
      simp only [pyIdx]
      split_ifs <;> omega
    · simp only [pyIdx]
      split_ifs <;> omega
    · simp only [pyIdx]
      split_ifs <;> omega

theorem chunkEnd_ge (l : List Char) (maxSize ov : Nat) (start : Int)
    (hov : ov < maxSize) (hs2 : -(1 + (ov : Int)) ≤ start) :
    -1 ≤ chunkEnd l maxSize start := by
  simp only [chunkEnd]
  rcases pyRfind_neg_or l ' ' start (start + maxSize) with hr | hr
  · split_ifs <;> omega
  · split_ifs <;> omega

theorem splitLoop_length_le (l : List Char) (maxSize ov : Nat)
    (hov : ov < maxSize) (hn : maxSize < l.length) :
    ∀ (fuel : Nat) (start : Int) (acc cs : List (List Char)),
      -(1 + (ov : Int)) ≤ start →
      (∀ c ∈ acc, c.length ≤ maxSize) →
      splitLoop l maxSize ov fuel start acc = some cs →
      ∀ c ∈ cs, c.length ≤ maxSize := by
  intro fuel
  induction fuel with
  | zero => intro start acc cs _ _ h; exact Option.noConfusion h
  | succ n ih =>
    intro start acc cs hs2 hacc h
    simp only [splitLoop] at h
    by_cases hlt : start < (l.length : Int)
    · rw [if_pos hlt] at h
      have hchunk_le : (pyStripL (pySlice l start (chunkEnd l maxSize start))).length
          ≤ maxSize :=
        le_trans ((pyStripL_sublist _).length_le)
          (chunk_length_le l maxSize ov start hov (by exact_mod_cast hn) hlt hs2)
      have hacc' : ∀ c ∈ (if (pyStripL (pySlice l start (chunkEnd l maxSize start))).isEmpty
          then acc
          else acc ++ [pyStripL (pySlice l start (chunkEnd l maxSize start))]),
          c.length ≤ maxSize := by
        intro c hc
        by_cases hce : (pyStripL (pySlice l start (chunkEnd l maxSize start))).isEmpty
        · rw [if_pos hce] at hc
          exact hacc c hc
        · rw [if_neg hce] at hc
          rcases List.mem_append.mp hc with hc | hc
          · exact hacc c hc
          · rw [List.mem_singleton.mp hc]
            exact hchunk_le
      by_cases hend : (l.length : Int) ≤ chunkEnd l maxSize start - ov
      · rw [if_pos hend] at h
        obtain rfl := Option.some.inj h
        exact hacc'
      · rw [if_neg hend] at h
        have hge := chunkEnd_ge l maxSize ov start hov hs2
        exact ih (chunkEnd l maxSize start - ov) _ cs (by omega) hacc' h
    · rw [if_neg hlt] at h
      obtain rfl := Option.some.inj h
      exact hacc

/-- C10: every chunk returned by split_text_into_chunks has length at most
max_chunk_size, under the precondition max_chunk_size greater than
overlap: the single-chunk branch returns a text already within the bound,
and in the sliding-window branch every emitted chunk is a stripped slice
of a window spanning at most max_chunk_size characters. -/
theorem splitTextIntoChunks_length_le (l : List Char) (maxSize ov fuel : Nat)
    (cs : List (List Char)) (hov : ov < maxSize)
    (h : splitTextIntoChunks l maxSize ov fuel = some cs) :
    ∀ c ∈ cs, c.length ≤ maxSize := by
  unfold splitTextIntoChunks at h
  by_cases hlen : l.length ≤ maxSize
  · rw [if_pos hlen] at h
    obtain rfl := Option.some.inj h
    intro c hc
    rw [List.mem_singleton.mp hc]
    exact hlen
  · rw [if_neg hlen] at h
    exact splitLoop_length_le l maxSize ov hov (by omega) fuel 0 [] cs
      (by omega) (fun c hc => absurd hc (List.not_mem_nil c)) h

/-- Witness for the chunk length bound on a concrete three-word text. -/
theorem splitTextIntoChunks_length_le_witness :
    "hello".data.length ≤ 8 ∧ "world".data.length ≤ 8 ∧ "foo".data.length ≤ 8 :=
  ⟨splitTextIntoChunks_length_le "hello world foo".data 8 0 5
      ["hello".data, "world".data, "foo".data] (by decide) (by rfl)
      "hello".data (by decide),
    splitTextIntoChunks_length_le "hello world foo".data 8 0 5
      ["hello".data, "world".data, "foo".data] (by decide) (by rfl)
      "world".data (by decide),
    splitTextIntoChunks_length_le "hello world foo".data 8 0 5
      ["hello".data, "world".data, "foo".data] (by decide) (by rfl)
      "foo".data (by decide)⟩

theorem splitWindows_acc (l : List Char) (maxSize ov : Nat) :
    ∀ (fuel : Nat) (start : Int) (acc : List (Int × Int)),
      splitWindows l maxSize ov fuel start acc =
        (splitWindows l maxSize ov fuel start []).map (acc ++ ·) := by
  intro fuel
  induction fuel with
  | zero => intro start acc; rfl
  | succ n ih =>
    intro start acc
    simp only [splitWindows]
    by_cases hlt : start < (l.length : Int)
    · rw [if_pos hlt, if_pos hlt]
      by_cases hend : (l.length : Int) ≤ chunkEnd l maxSize start - ov
      · rw [if_pos hend, if_pos hend]
        simp
      · rw [if_neg hend, if_neg hend]
        rw [ih (chunkEnd l maxSize start - ov) (acc ++ [(start, chunkEnd l maxSize start)]),
          ih (chunkEnd l maxSize start - ov) ([] ++ [(start, chunkEnd l maxSize start)])]
        rw [Option.map_map]
        congr 1
        funext ws
        simp [List.append_assoc]
    · rw [if_neg hlt, if_neg hlt]
      simp

theorem splitWindows_chain (l : List Char) (maxSize ov : Nat) :
    ∀ (fuel : Nat) (start : Int) (ws : List (Int × Int)),
      splitWindows l maxSize ov fuel start [] = some ws →
      WindowChain l maxSize ov start ws := by
  intro fuel
  induction fuel with
  | zero => intro start ws h; exact Option.noConfusion h
  | succ n ih =>
    intro start ws h
    simp only [splitWindows] at h
    by_cases hlt : start < (l.length : Int)
    · rw [if_pos hlt] at h
      by_cases hend : (l.length : Int) ≤ chunkEnd l maxSize start - ov
      · rw [if_pos hend] at h
        obtain rfl := Option.some.inj h
        exact ⟨rfl, rfl, trivial⟩
      · rw [if_neg hend] at h
        rw [splitWindows_acc l maxSize ov n (chunkEnd l maxSize start - ov)
          ([] ++ [(start, chunkEnd l maxSize start)])] at h
        cases hx : splitWindows l maxSize ov n (chunkEnd l maxSize start - ov) [] with
        | none => rw [hx] at h; exact Option.noConfusion h
        | some rest =>
          rw [hx] at h
          obtain rfl := Option.some.inj h
          exact ⟨rfl, rfl, ih (chunkEnd l maxSize start - ov) rest hx⟩
    · rw [if_neg hlt] at h
      obtain rfl := Option.some.inj h
      trivial

theorem splitLoop_eq_windows (l : List Char) (maxSize ov : Nat) :
    ∀ (fuel : Nat) (start : Int) (acc : List (List Char)),
      splitLoop l maxSize ov fuel start acc =
        (splitWindows l maxSize ov fuel start []).map
          (fun ws => acc ++ (ws.map (mkChunk l)).filter (fun c => !c.isEmpty)) := by
  intro fuel
  induction fuel with
  | zero => intro start acc; rfl
  | succ n ih =>
    intro start acc
    simp only [splitLoop, splitWindows]
    by_cases hlt : start < (l.length : Int)
    · rw [if_pos hlt, if_pos hlt]
      by_cases hend : (l.length : Int) ≤ chunkEnd l maxSize start - ov
      · rw [if_pos hend, if_pos hend]
        by_cases hce : (pyStripL (pySlice l start (chunkEnd l maxSize start))).isEmpty
        · rw [if_pos hce]
          simp [mkChunk, hce]
        · rw [if_neg hce]
          simp [mkChunk, hce]
      · rw [if_neg hend, if_neg hend]
        rw [ih (chunkEnd l maxSize start - ov)
          (if (pyStripL (pySlice l start (chunkEnd l maxSize start))).isEmpty then acc
            else acc ++ [pyStripL (pySlice l start (chunkEnd l maxSize start))])]
        rw [splitWindows_acc l maxSize ov n (chunkEnd l maxSize start - ov)
          ([] ++ [(start, chunkEnd l maxSize start)])]
        rw [Option.map_map]
        congr 1
        funext ws
        by_cases hce : (pyStripL (pySlice l start (chunkEnd l maxSize start))).isEmpty
        · rw [if_pos hce]
          simp [mkChunk, hce]
        · rw [if_neg hce]
          simp [mkChunk, hce, List.append_assoc]
    · rw [if_neg hlt, if_neg hlt]
      simp

theorem windowChain_ends (l : List Char) (maxSize ov : Nat) :
    ∀ (ws : List (Int × Int)) (start : Int),
      WindowChain l maxSize ov start ws →
      ∀ w ∈ ws, w.2 = chunkEnd l maxSize w.1 := by
  intro ws
  induction ws with
  | nil => intro start _ w hw; cases hw
  | cons a rest ih =>
    intro start hch w hw
    rcases List.mem_cons.mp hw with rfl | hw'
    · exact hch.2.1
    · exact ih (a.2 - ov) hch.2.2 w hw'

theorem chunkEnd_space (l : List Char) (maxSize : Nat) (start : Int)
    (h0 : 0 ≤ start) (h1 : start + maxSize < (l.length : Int))
    (h2 : start < pyRfind l ' ' start (start + maxSize)) :
    l[(chunkEnd l maxSize start).toNat]? = some ' ' := by
  simp only [chunkEnd]
  rw [if_pos h1, if_pos h2]
  rcases pyRfind_neg_or l ' ' start (start + maxSize) with hr | hr
  · rw [hr] at h2
    exact absurd h2 (by omega)
  · exact hr.2.2.2

/-- C6 counterexample: the ten-letter text aaaaaaaaaa contains no
whitespace at all, yet split_text_into_chunks with max_chunk_size 5 and
overlap 0 returns the two chunks aaaaa and aaaaa, so the non-final chunk
is cut strictly inside a word and does not end at or before any
whitespace boundary of the original text. -/
theorem split_word_boundary_cex :
    splitTextIntoChunks "aaaaaaaaaa".data 5 0 2 =
      some ["aaaaa".data, "aaaaa".data] ∧
    "aaaaaaaaaa".data.all (fun c => !isPyWs c) = true := by
  decide

/-- C6 (amended): in the sliding-window branch the loop produces a chain
of windows in which every window's end is computed by chunkEnd and the
next window starts exactly overlap characters before the previous
window's end, so consecutive chunks share at most overlap characters of
the text; the emitted chunks are exactly the non-empty stripped window
slices; and a window whose start is non-negative, whose tentative end
lies strictly inside the text, and whose interior contains a space
strictly after the start, ends exactly at a space of the original text
(the chunk never cuts a word in that case).  When the window contains no
such space the chunk is cut at max_chunk_size and may split a word. -/
theorem splitTextIntoChunks_boundary (l : List Char) (maxSize ov fuel : Nat)
    (cs : List (List Char)) (hlen : maxSize < l.length)
    (h : splitTextIntoChunks l maxSize ov fuel = some cs) :
    ∃ ws, WindowChain l maxSize ov 0 ws ∧
      cs = (ws.map (mkChunk l)).filter (fun c => !c.isEmpty) ∧
      ∀ w ∈ ws, 0 ≤ w.1 → w.1 + maxSize < (l.length : Int) →
        w.1 < pyRfind l ' ' w.1 (w.1 + maxSize) →
        l[(w.2).toNat]? = some ' ' := by
  unfold splitTextIntoChunks at h
  rw [if_neg (by omega)] at h
  rw [splitLoop_eq_windows l maxSize ov fuel 0 []] at h
  cases hx : splitWindows l maxSize ov fuel 0 [] with
  | none => rw [hx] at h; exact Option.noConfusion h
  | some ws =>
    rw [hx] at h
    have hcs : cs = (ws.map (mkChunk l)).filter (fun c => !c.isEmpty) := by
      have := Option.some.inj h
      rw [← this]
      simp
    have hchain := splitWindows_chain l maxSize ov fuel 0 ws hx
    refine ⟨ws, hchain, hcs, ?_⟩
    intro w hw h0 h1 h2
    rw [windowChain_ends l maxSize ov ws 0 hchain w hw]
    exact chunkEnd_space l maxSize w.1 h0 h1 h2

/-- Witness for the amended C6 theorem on a concrete three-word text. -/
theorem splitTextIntoChunks_boundary_witness :
    ∃ ws, WindowChain "hello world foo".data 8 0 0 ws ∧
      ["hello".data, "world".data, "foo".data] =
        (ws.map (mkChunk "hello world foo".data)).filter (fun c => !c.isEmpty) ∧
      ∀ w ∈ ws, 0 ≤ w.1 → w.1 + 8 < ("hello world foo".data.length : Int) →
        w.1 < pyRfind "hello world foo".data ' ' w.1 (w.1 + 8) →
        "hello world foo".data[(w.2).toNat]? = some ' ' :=
  splitTextIntoChunks_boundary "hello world foo".data 8 0 5
    ["hello".data, "world".data, "foo".data] (by decide) (by rfl)
